import Mathlib

/-!
Verification of the tree-layout engine of the phylo_dashboard repository.

The embedding models `create_tree_plot` and its helpers from `src/callbacks.py`:
a parsed phylogenetic tree (Biopython clades: optional name, optional branch
length, optional confidence, ordered child list) is laid out as a rectangular
dendrogram.  Python floats are idealised as rationals (`ℚ`); the Biopython
parsing step and `root_at_midpoint` rerooting are performed upstream of the
modelled code and are treated as producers of the input `Clade` value.
-/

namespace PhyloDash

/-- A parsed clade as Biopython delivers it to `create_tree_plot`:
`name`, `branch_length`, `confidence`, and the ordered list of children
(`clade.clades`).  A clade is terminal iff its child list is empty. -/
inductive Clade : Type where
  | mk : Option String → Option ℚ → Option ℚ → List Clade → Clade

def Clade.name : Clade → Option String
  | .mk nm _ _ _ => nm

def Clade.branchLength : Clade → Option ℚ
  | .mk _ bl _ _ => bl

def Clade.confidence : Clade → Option ℚ
  | .mk _ _ cf _ => cf

def Clade.clades : Clade → List Clade
  | .mk _ _ _ cs => cs

/-- A clade annotated with the `(x, y)` coordinates stored in the Python
dictionaries `x_coords[clade]` / `y_coords[clade]` (which are keyed by object
identity, hence one entry per node). -/
inductive ACl : Type where
  | mk : Option String → Option ℚ → Option ℚ → ℚ → ℚ → List ACl → ACl

def ACl.name : ACl → Option String
  | .mk nm _ _ _ _ _ => nm

def ACl.branchLength : ACl → Option ℚ
  | .mk _ bl _ _ _ _ => bl

def ACl.confidence : ACl → Option ℚ
  | .mk _ _ cf _ _ _ => cf

def ACl.x : ACl → ℚ
  | .mk _ _ _ x _ _ => x

def ACl.y : ACl → ℚ
  | .mk _ _ _ _ y _ => y

def ACl.clades : ACl → List ACl
  | .mk _ _ _ _ _ cs => cs

mutual

/-- `assign_coordinates(clade, x_start=0, y_start=0)` from `create_tree_plot`
(src/callbacks.py).  `branch_length if branch_length else 0.0` is `getD 0`
(Python truthiness sends both `None` and `0.0` to `0.0`).  A terminal gets
`x = x_start + bl`, `y = y_start` and returns `y_start + 1`; an internal node
recurses through its children threading the counter, collects
`y_start - 1` after each child into `y_positions`, gets
`y = sum(y_positions) / len(y_positions)` and returns the final counter. -/
def assignCoordinates (c : Clade) (xStart yStart : ℚ) : ACl × ℚ :=
  match c with
  | .mk nm bl cf cs =>
    match cs with
    | [] => (.mk nm bl cf (xStart + bl.getD 0) yStart [], yStart + 1)
    | c0 :: rest =>
      let r := assignList (c0 :: rest) (xStart + bl.getD 0) yStart
      (.mk nm bl cf (xStart + bl.getD 0) (r.2.1.sum / (r.2.1.length : ℚ)) r.1, r.2.2)
termination_by structural c

/-- The `for child in clade.clades` loop inside `assign_coordinates`:
returns the annotated children, the `y_positions` list and the final
`y_start` counter. -/
def assignList (cs : List Clade) (xCur yStart : ℚ) : List ACl × List ℚ × ℚ :=
  match cs with
  | [] => ([], [], yStart)
  | c :: rest =>
    let p := assignCoordinates c xCur yStart
    let q := assignList rest xCur p.2
    (p.1 :: q.1, (p.2 - 1) :: q.2.1, q.2.2)
termination_by structural cs

end

/-- `assign_coordinates(tree.root)` with the default arguments
`x_start=0, y_start=0`. -/
def annotate (t : Clade) : ACl := (assignCoordinates t 0 0).1

mutual

def sizeA : ACl → ℕ
  | .mk _ _ _ _ _ cs => 1 + sizeAList cs
termination_by structural c => c

def sizeAList : List ACl → ℕ
  | [] => 0
  | c :: cs => sizeA c + sizeAList cs
termination_by structural cs => cs

end

mutual

/-- The terminals of an annotated clade in left-to-right (declaration) order,
as `tree.get_terminals()` enumerates them. -/
def terminalsA : ACl → List ACl
  | .mk nm bl cf x y [] => [.mk nm bl cf x y []]
  | .mk _ _ _ _ _ (c :: cs) => terminalsAList (c :: cs)
termination_by structural c => c

def terminalsAList : List ACl → List ACl
  | [] => []
  | c :: cs => terminalsA c ++ terminalsAList cs
termination_by structural cs => cs

end

mutual

/-- All nodes of an annotated clade (preorder). -/
def allNodesA : ACl → List ACl
  | .mk nm bl cf x y cs => .mk nm bl cf x y cs :: allNodesAList cs
termination_by structural c => c

def allNodesAList : List ACl → List ACl
  | [] => []
  | c :: cs => allNodesA c ++ allNodesAList cs
termination_by structural cs => cs

end

mutual

/-- All (parent, child) edges of an annotated clade. -/
def pairsA : ACl → List (ACl × ACl)
  | .mk nm bl cf x y cs =>
      cs.map (fun c => (ACl.mk nm bl cf x y cs, c)) ++ pairsAList cs
termination_by structural c => c

def pairsAList : List ACl → List (ACl × ACl)
  | [] => []
  | c :: cs => pairsA c ++ pairsAList cs
termination_by structural cs => cs

end

/-- The y-coordinate of the rightmost (last-declared) terminal in a subtree. -/
def lastTipY (a : ACl) : ℚ := ((terminalsA a).map ACl.y).getLastD 0

/-- Breadth-first traversal with explicit fuel; with enough fuel this is
`tree.find_clades(order='level')`. -/
def bfsLevels : ℕ → List ACl → List ACl
  | 0, _ => []
  | _ + 1, [] => []
  | fuel + 1, c :: cs => (c :: cs) ++ bfsLevels fuel ((c :: cs).flatMap ACl.clades)

/-- `tree.find_clades(order='level')`: level-order enumeration of all nodes.
`sizeA a` bounds the number of levels, so the fuel never runs out. -/
def levelOrder (a : ACl) : List ACl := bfsLevels (sizeA a) [a]

/-- One `go.Scatter` line trace with two points `(x0, y0)` and `(x1, y1)`. -/
structure Seg where
  x0 : ℚ
  y0 : ℚ
  x1 : ℚ
  y1 : ℚ
deriving DecidableEq

/-- Python `min(list)` on a nonempty list (default is never consulted). -/
def minPy (l : List ℚ) (d : ℚ) : ℚ :=
  match l with
  | [] => d
  | v :: vs => vs.foldl min v

/-- Python `max(list)` on a nonempty list (default is never consulted). -/
def maxPy (l : List ℚ) (d : ℚ) : ℚ :=
  match l with
  | [] => d
  | v :: vs => vs.foldl max v

/-- The branch traces one clade contributes inside the
`for clade in tree.find_clades(order='level')` loop: nothing for a childless
clade; otherwise one vertical segment at `x = x(clade)` from
`min(y_positions)` to `max(y_positions)` followed by one horizontal segment
per child, from `(x(clade), y(child))` to `(x(child), y(child))`. -/
def cladeSegs (n : ACl) : List Seg :=
  match n.clades with
  | [] => []
  | c :: cs =>
    let ys := (c :: cs).map ACl.y
    ⟨n.x, minPy ys 0, n.x, maxPy ys 0⟩ ::
      (c :: cs).map (fun child => ⟨n.x, child.y, child.x, child.y⟩)

/-- A bootstrap-support marker (a black diamond in the plot). -/
structure BootMarker where
  x : ℚ
  y : ℚ
  conf : ℚ
deriving DecidableEq

/-- `if clade.confidence and clade.confidence > 0.9`: Python truthiness means
a present confidence of `0.0` is falsy, otherwise the comparison decides. -/
def bootMarkerOf (n : ACl) : Option BootMarker :=
  match n.confidence with
  | none => none
  | some c => if c ≠ 0 ∧ 9 / 10 < c then some ⟨n.x, n.y, c⟩ else none

/-- `px.colors.qualitative.Plotly` (10 colors), used for locations. -/
def plotlyPalette : List String :=
  ["#636EFA", "#EF553B", "#00CC96", "#AB63FA", "#FFA15A",
   "#19D3F3", "#FF6692", "#B6E880", "#FF97FF", "#FECB52"]

/-- `pcolors.qualitative.Vivid` (11 colors), used for MLST values. -/
def vividPalette : List String :=
  ["rgb(229, 134, 6)", "rgb(93, 105, 177)", "rgb(82, 188, 163)",
   "rgb(153, 201, 69)", "rgb(204, 97, 176)", "rgb(36, 121, 108)",
   "rgb(218, 165, 27)", "rgb(47, 138, 196)", "rgb(118, 78, 159)",
   "rgb(237, 100, 90)", "rgb(165, 170, 153)"]

/-- One row of the metadata table after `pd.read_csv`; `none` stands for a
NaN cell in the `location` / `MLST` columns. -/
structure Row where
  taxa : String
  location : Option String
  mlst : Option String
deriving DecidableEq

/-- `metadata['location'].fillna('Unknown')` applied to one cell. -/
def locVal (r : Row) : String := r.location.getD "Unknown"

/-- `metadata['MLST'].fillna('Unknown')` applied to one cell. -/
def mlstVal (r : Row) : String := r.mlst.getD "Unknown"

/-- `Series.unique()`: values in first-occurrence order, duplicates dropped. -/
def uniqueAux (seen : List String) : List String → List String
  | [] => []
  | v :: vs => if seen.contains v then uniqueAux seen vs else v :: uniqueAux (v :: seen) vs

def uniqueKeepFirst (l : List String) : List String := uniqueAux [] l

/-- `colors[i % len(colors)]`. -/
def paletteColor (pal : List String) (i : ℕ) : String :=
  pal.getD (i % pal.length) "gray"

/-- The dict comprehension
`{v: colors[i % len(colors)] for i, v in enumerate(column.unique())}`,
kept as an association list in insertion order. -/
def colorMapOf (pal : List String) (vals : List String) : List (String × String) :=
  (uniqueKeepFirst vals).enum.map (fun p => (p.2, paletteColor pal p.1))

/-- Python `dict.get(k, default)`. -/
def dictGet (m : List (String × String)) (k d : String) : String :=
  match m.find? (fun p => p.1 == k) with
  | some p => p.2
  | none => d

/-- `metadata[metadata['taxa'] == clade.name]` followed by `.iloc[0]`:
the first row whose `taxa` equals the tip name (a `None` name matches no
row). -/
def findRow (md : List Row) (nm : Option String) : Option Row :=
  md.find? (fun r => decide (some r.taxa = nm))

/-- The location category a tip carries: the `location` cell of its metadata
row, with the `"Unknown"` sentinel both for a NaN cell and (for stating the
spec's intended semantics) for an absent row. -/
def tipLocVal (md : List Row) (c : ACl) : String :=
  match findRow md c.name with
  | some r => locVal r
  | none => "Unknown"

/-- The MLST category a tip carries, analogous to `tipLocVal`. -/
def tipMlstVal (md : List Row) (c : ACl) : String :=
  match findRow md c.name with
  | some r => mlstVal r
  | none => "Unknown"

/-- A tip scatter marker: position, fill color, optional legend name, legend
visibility, and the optional text label shown when `show_tip_labels` is on. -/
structure TipMarker where
  x : ℚ
  y : ℚ
  color : String
  legendName : Option String
  showLegend : Bool
  label : Option String
deriving DecidableEq

/-- An MLST heatmap square: position, fill color, optional legend name,
legend visibility and the MLST value shown on hover. -/
structure MlstMarker where
  x : ℚ
  y : ℚ
  color : String
  legendName : Option String
  showLegend : Bool
  value : String
deriving DecidableEq

/-- The `for clade in tree.get_terminals()` loop of `create_tree_plot`:
tips without a metadata row are skipped entirely (`if not meta_row.empty`);
a matched tip emits one tip marker and one MLST square, with the
`seen_locations` / `seen_mlst` sets suppressing repeated legend entries. -/
def tipLoop (md : List Row) (locMap mlstMap : List (String × String)) (mlstX : ℚ)
    (showTipLabels : Bool) :
    List ACl → List String → List String → List TipMarker × List MlstMarker
  | [], _, _ => ([], [])
  | tc :: rest, seenLocations, seenMlst =>
    match findRow md tc.name with
    | none => tipLoop md locMap mlstMap mlstX showTipLabels rest seenLocations seenMlst
    | some row =>
      let location := locVal row
      let mlstValue := mlstVal row
      let showLocationLegend := !(seenLocations.contains location)
      let seenLocations2 := if showLocationLegend then location :: seenLocations else seenLocations
      let showMlstLegend := !(seenMlst.contains mlstValue)
      let seenMlst2 := if showMlstLegend then mlstValue :: seenMlst else seenMlst
      let r := tipLoop md locMap mlstMap mlstX showTipLabels rest seenLocations2 seenMlst2
      (⟨tc.x, tc.y, dictGet locMap location "gray",
          if showLocationLegend then some location else none,
          showLocationLegend,
          if showTipLabels then some (tc.name.getD "None") else none⟩ :: r.1,
       ⟨mlstX, tc.y, dictGet mlstMap mlstValue "gray",
          if showMlstLegend then some mlstValue else none,
          showMlstLegend, mlstValue⟩ :: r.2)

/-- `len(clade.name)` for a tip, or `none` when `if clade.name` is falsy
(no name, or an empty-string name). -/
def tipNameLen (c : ACl) : Option ℕ :=
  match c.name with
  | some s => if s = "" then none else some s.length
  | none => none

/-- `max((len(clade.name) for clade in tree.get_terminals() if clade.name), default=10)`. -/
def maxLabelLengthOf (tips : List ACl) : ℕ :=
  match tips.filterMap tipNameLen with
  | [] => 10
  | l :: ls => ls.foldl max l

/-- The render-ready payload `create_tree_plot` returns: the traces of the
`go.Figure` grouped by kind along with the layout numbers derived from the
tree.  The constant legend-title dummy scatters are omitted (they carry no
data). -/
structure Figure where
  lineTraces : List Seg
  bootstrapMarkers : List BootMarker
  tipMarkers : List TipMarker
  mlstMarkers : List MlstMarker
  height : ℕ
  width : ℕ
  xRangeHi : ℚ
  yRangeHi : ℚ
deriving DecidableEq

/-- `create_tree_plot(tree_file, metadata_file, show_tip_labels, height, width)`
from src/callbacks.py, starting from the parsed and midpoint-rooted tree.
The `height`/`width` parameters are shadowed by the dynamically computed
values (lines 182-183) before first use, exactly as in the source. -/
def createTreePlot (t : Clade) (md : List Row) (showTipLabels : Bool)
    (hparam wparam : Option ℕ) : Figure :=
  let locMap := colorMapOf plotlyPalette (md.map locVal)
  let mlstMap := colorMapOf vividPalette (md.map mlstVal)
  let a := annotate t
  let tips := terminalsA a
  let height := max 800 (tips.length * 25)
  let width := max 1000 (800 + maxLabelLengthOf tips * 10)
  let mlstX := maxPy ((allNodesA a).map ACl.x) 0 + 1 / 50
  let tm := tipLoop md locMap mlstMap mlstX showTipLabels tips [] []
  { lineTraces := (levelOrder a).flatMap cladeSegs
    bootstrapMarkers := (levelOrder a).filterMap bootMarkerOf
    tipMarkers := tm.1
    mlstMarkers := tm.2
    height := height
    width := width
    xRangeHi := mlstX + 1 / 100
    yRangeHi := ((terminalsA a).map ACl.y).foldl max 0 + 1 }

/-- The legend-visibility flags a `seen`-set scan assigns to a value list:
`true` exactly at the first occurrence of each value not already seen. -/
def legendFlags (seen : List String) : List String → List Bool
  | [] => []
  | v :: vs =>
    (!(seen.contains v)) ::
      legendFlags (if seen.contains v then seen else v :: seen) vs

/-- Concrete tree `(A:1.0,(B:1.0,C:1.0):1.0);` from the spec's example
scenario. -/
def exTree : Clade :=
  .mk none none none
    [.mk (some "A") (some 1) none [],
     .mk none (some 1) none
       [.mk (some "B") (some 1) none [], .mk (some "C") (some 1) none []]]

/-- Metadata for the spec's example: A and B share a location, C differs. -/
def exMd : List Row :=
  [⟨"A", some "Paris", some "ST1"⟩,
   ⟨"B", some "Paris", some "ST2"⟩,
   ⟨"C", some "Tokyo", some "ST1"⟩]

/-- Tree with two tips A and D for the missing-metadata-row scenario. -/
def exTreeAD : Clade :=
  .mk none none none
    [.mk (some "A") (some 1) none [], .mk (some "D") (some 1) none []]

/-- Metadata with a row for A only: tip D has no matching row. -/
def exMdA : List Row := [⟨"A", some "Paris", some "ST1"⟩]

/-- Metadata whose row order (B before A) differs from the tip scan order
(A before B) of `exTreeAB`. -/
def exMdBA : List Row :=
  [⟨"B", some "Tokyo", some "ST7"⟩, ⟨"A", some "Paris", some "ST8"⟩]

/-- Tree with tips A then B in declaration order. -/
def exTreeAB : Clade :=
  .mk none none none
    [.mk (some "A") (some 1) none [], .mk (some "B") (some 1) none []]

/-- Tree whose root carries a confidence value above the 0.9 threshold. -/
def exTreeConf : Clade :=
  .mk none none (some (95 / 100))
    [.mk (some "A") (some 1) none [], .mk (some "B") (some 2) none []]

/-- Arithmetic progression `s, s+1, …` of the given length (the successive
values of the `y_start` counter at the terminals). -/
def rangeQ (s : ℚ) : ℕ → List ℚ
  | 0 => []
  | n + 1 => s :: rangeQ (s + 1) n

theorem rangeQ_length (s : ℚ) (n : ℕ) : (rangeQ s n).length = n := by
  induction n generalizing s with
  | zero => simp [rangeQ]
  | succ n ih => simp [rangeQ, ih]

theorem rangeQ_append (a b : ℕ) (s : ℚ) :
    rangeQ s (a + b) = rangeQ s a ++ rangeQ (s + a) b := by
  induction a generalizing s with
  | zero => simp [rangeQ]
  | succ a ih =>
    have h : a + 1 + b = (a + b) + 1 := by omega
    rw [h]
    simp only [rangeQ, ih (s + 1), List.cons_append]
    have h2 : s + 1 + (a : ℚ) = s + ((a : ℕ) + 1 : ℕ) := by push_cast; ring
    rw [h2]

theorem rangeQ_getLastD (n : ℕ) (hn : 1 ≤ n) (s d : ℚ) :
    (rangeQ s n).getLastD d = s + n - 1 := by
  induction n generalizing s d with
  | zero => omega
  | succ n ih =>
    cases n with
    | zero => simp [rangeQ]
    | succ m =>
      rw [show rangeQ s (m + 1 + 1) = s :: rangeQ (s + 1) (m + 1) from rfl,
        List.getLastD_cons, ih (by omega)]
      push_cast
      ring

theorem rangeQ_eq_map_range (s : ℚ) (n : ℕ) :
    rangeQ s n = (List.range n).map (fun i : ℕ => s + (i : ℚ)) := by
  induction n generalizing s with
  | zero => simp [rangeQ]
  | succ n ih =>
    rw [show rangeQ s (n + 1) = s :: rangeQ (s + 1) n from rfl, ih,
      List.range_succ_eq_map, List.map_cons, List.map_map]
    congr 1
    · norm_num
    · apply List.map_congr_left
      intro i _
      simp only [Function.comp_apply]
      push_cast
      ring

theorem terminalsAList_eq_flatMap (cs : List ACl) :
    terminalsAList cs = cs.flatMap terminalsA := by
  induction cs with
  | nil => simp [terminalsAList]
  | cons c cs ih => simp [terminalsAList, ih]

theorem allNodesAList_eq_flatMap (cs : List ACl) :
    allNodesAList cs = cs.flatMap allNodesA := by
  induction cs with
  | nil => simp [allNodesAList]
  | cons c cs ih => simp [allNodesAList, ih]

theorem assignCoordinates_leaf (nm : Option String) (bl cf : Option ℚ) (xs ys : ℚ) :
    assignCoordinates (Clade.mk nm bl cf []) xs ys
      = (ACl.mk nm bl cf (xs + bl.getD 0) ys [], ys + 1) := by
  simp [assignCoordinates]

theorem assignCoordinates_node (nm : Option String) (bl cf : Option ℚ)
    (c0 : Clade) (rest : List Clade) (xs ys : ℚ) :
    assignCoordinates (Clade.mk nm bl cf (c0 :: rest)) xs ys
      = (ACl.mk nm bl cf (xs + bl.getD 0)
          ((assignList (c0 :: rest) (xs + bl.getD 0) ys).2.1.sum
            / ((assignList (c0 :: rest) (xs + bl.getD 0) ys).2.1.length : ℚ))
          (assignList (c0 :: rest) (xs + bl.getD 0) ys).1,
         (assignList (c0 :: rest) (xs + bl.getD 0) ys).2.2) := by
  simp [assignCoordinates]

theorem assignList_nil (x ys : ℚ) : assignList [] x ys = ([], [], ys) := by
  simp [assignList]

theorem assignList_cons (c : Clade) (rest : List Clade) (x ys : ℚ) :
    assignList (c :: rest) x ys
      = ((assignCoordinates c x ys).1
            :: (assignList rest x (assignCoordinates c x ys).2).1,
         ((assignCoordinates c x ys).2 - 1)
            :: (assignList rest x (assignCoordinates c x ys).2).2.1,
         (assignList rest x (assignCoordinates c x ys).2).2.2) := by
  simp [assignList]

theorem terminalsA_mk_cons (nm : Option String) (bl cf : Option ℚ) (x y : ℚ)
    (c : ACl) (cs : List ACl) :
    terminalsA (ACl.mk nm bl cf x y (c :: cs)) = terminalsAList (c :: cs) := by
  simp [terminalsA]

theorem allNodesA_mk (nm : Option String) (bl cf : Option ℚ) (x y : ℚ)
    (cs : List ACl) :
    allNodesA (ACl.mk nm bl cf x y cs)
      = ACl.mk nm bl cf x y cs :: allNodesAList cs := by
  simp [allNodesA]

theorem pairsA_mk (nm : Option String) (bl cf : Option ℚ) (x y : ℚ)
    (cs : List ACl) :
    pairsA (ACl.mk nm bl cf x y cs)
      = cs.map (fun c => (ACl.mk nm bl cf x y cs, c)) ++ pairsAList cs := by
  simp [pairsA]

mutual

/-- Invariant of `assign_coordinates`: the terminal y-coordinates of the
produced subtree are the consecutive counter values starting at `y_start`,
the returned counter is `y_start` plus the number of terminals, and every
subtree has at least one terminal. -/
theorem tipsSpec (c : Clade) (xs ys : ℚ) :
    ((terminalsA (assignCoordinates c xs ys).1).map ACl.y)
        = rangeQ ys ((terminalsA (assignCoordinates c xs ys).1).length)
      ∧ (assignCoordinates c xs ys).2
        = ys + ((terminalsA (assignCoordinates c xs ys).1).length : ℚ)
      ∧ (terminalsA (assignCoordinates c xs ys).1) ≠ [] := by
  match c with
  | .mk nm bl cf [] =>
    rw [assignCoordinates_leaf]
    simp [terminalsA, rangeQ, ACl.y]
  | .mk nm bl cf (c0 :: rest) =>
    have hl := tipsSpecList (c0 :: rest) (xs + bl.getD 0) ys
    have h0 := tipsSpec c0 (xs + bl.getD 0) ys
    rw [assignCoordinates_node]
    rw [assignList_cons] at hl ⊢
    rw [terminalsA_mk_cons]
    refine ⟨hl.1, hl.2, ?_⟩
    rw [terminalsAList]
    intro hemp
    exact h0.2.2 (List.append_eq_nil.mp hemp).1
termination_by structural c

theorem tipsSpecList (cs : List Clade) (x ys : ℚ) :
    ((terminalsAList (assignList cs x ys).1).map ACl.y)
        = rangeQ ys ((terminalsAList (assignList cs x ys).1).length)
      ∧ (assignList cs x ys).2.2
        = ys + ((terminalsAList (assignList cs x ys).1).length : ℚ) := by
  match cs with
  | [] => simp [assignList_nil, terminalsAList, rangeQ]
  | c :: rest =>
    have hc := tipsSpec c x ys
    have hr := tipsSpecList rest x (assignCoordinates c x ys).2
    rw [assignList_cons, terminalsAList]
    rw [hc.2.1] at hr
    constructor
    · rw [List.map_append, hc.1, List.length_append, rangeQ_append, hc.2.1] at *
      rw [hr.1]
    · rw [List.length_append, hc.2.1] at *
      rw [hr.2]
      push_cast
      ring
termination_by structural cs

end

/-- The y-coordinate of the rightmost terminal of an assigned subtree is the
returned counter minus one — exactly the value `y_positions` collects. -/
theorem lastTipSpec (c : Clade) (xs ys : ℚ) :
    lastTipY (assignCoordinates c xs ys).1 = (assignCoordinates c xs ys).2 - 1 := by
  have h := tipsSpec c xs ys
  have hlen : 1 ≤ (terminalsA (assignCoordinates c xs ys).1).length :=
    List.length_pos.mpr h.2.2
  rw [lastTipY, h.1, rangeQ_getLastD _ hlen, h.2.1]

/-- The `y_positions` list is the list of last-terminal y-coordinates of the
annotated children. -/
theorem posSpec (cs : List Clade) (x : ℚ) :
    ∀ ys : ℚ, (assignList cs x ys).2.1 = ((assignList cs x ys).1).map lastTipY := by
  induction cs with
  | nil => intro ys; simp [assignList_nil]
  | cons c rest ih =>
    intro ys
    rw [assignList_cons]
    simp only [List.map_cons]
    rw [lastTipSpec, ih]

mutual

/-- Every internal node of an assigned subtree has
`y = mean of (last-terminal y of each child's subtree)`. -/
theorem ySpec (c : Clade) (xs ys : ℚ) :
    ∀ n ∈ allNodesA (assignCoordinates c xs ys).1, n.clades ≠ [] →
      n.y = ((n.clades.map lastTipY).sum) / (n.clades.length : ℚ) := by
  match c with
  | .mk nm bl cf [] =>
    rw [assignCoordinates_leaf]
    intro n hn hne
    rw [allNodesA_mk, allNodesAList] at hn
    rcases List.mem_cons.mp hn with h | h
    · subst h; simp [ACl.clades] at hne
    · simp at h
  | .mk nm bl cf (c0 :: rest) =>
    have hl := ySpecList (c0 :: rest) (xs + bl.getD 0) ys
    have hpos := posSpec (c0 :: rest) (xs + bl.getD 0) ys
    intro n hn hne
    rw [assignCoordinates_node, allNodesA_mk] at hn
    rcases List.mem_cons.mp hn with h | h
    · subst h
      simp only [ACl.clades, ACl.y]
      rw [hpos, List.length_map]
    · exact hl n h hne
termination_by structural c

theorem ySpecList (cs : List Clade) (x ys : ℚ) :
    ∀ n ∈ allNodesAList (assignList cs x ys).1, n.clades ≠ [] →
      n.y = ((n.clades.map lastTipY).sum) / (n.clades.length : ℚ) := by
  match cs with
  | [] =>
    rw [assignList_nil]
    intro n hn
    simp [allNodesAList] at hn
  | c :: rest =>
    have hc := ySpec c x ys
    have hr := ySpecList rest x (assignCoordinates c x ys).2
    intro n hn hne
    rw [assignList_cons, allNodesAList] at hn
    rcases List.mem_append.mp hn with h | h
    · exact hc n h hne
    · exact hr n h hne
termination_by structural cs

end

mutual

/-- x-coordinates are cumulative: the root of an assigned subtree sits at
`x_start + bl`, branch lengths are copied unchanged, and every (parent,
child) edge satisfies `x(child) = x(parent) + bl(child)`. -/
theorem xSpec (c : Clade) (xs ys : ℚ) :
    (assignCoordinates c xs ys).1.x = xs + c.branchLength.getD 0
      ∧ (assignCoordinates c xs ys).1.branchLength = c.branchLength
      ∧ ∀ pr ∈ pairsA (assignCoordinates c xs ys).1,
          pr.2.x = pr.1.x + pr.2.branchLength.getD 0 := by
  match c with
  | .mk nm bl cf [] =>
    rw [assignCoordinates_leaf]
    refine ⟨rfl, rfl, ?_⟩
    intro pr hpr
    rw [pairsA_mk] at hpr
    simp [pairsAList] at hpr
  | .mk nm bl cf (c0 :: rest) =>
    have hl := xSpecList (c0 :: rest) (xs + bl.getD 0) ys
    rw [assignCoordinates_node]
    refine ⟨rfl, rfl, ?_⟩
    intro pr hpr
    rw [pairsA_mk] at hpr
    rcases List.mem_append.mp hpr with h | h
    · rcases List.mem_map.mp h with ⟨ac, hac, hpr2⟩
      subst hpr2
      have := hl.1 ac hac
      simpa [ACl.x] using this
    · exact hl.2 pr h
termination_by structural c

theorem xSpecList (cs : List Clade) (x ys : ℚ) :
    (∀ ac ∈ (assignList cs x ys).1, ac.x = x + ac.branchLength.getD 0)
      ∧ ∀ pr ∈ pairsAList (assignList cs x ys).1,
          pr.2.x = pr.1.x + pr.2.branchLength.getD 0 := by
  match cs with
  | [] =>
    rw [assignList_nil]
    exact ⟨by intro ac h; simp at h, by intro pr h; simp [pairsAList] at h⟩
  | c :: rest =>
    have hc := xSpec c x ys
    have hr := xSpecList rest x (assignCoordinates c x ys).2
    rw [assignList_cons]
    constructor
    · intro ac hac
      rcases List.mem_cons.mp hac with h | h
      · subst h
        rw [hc.1, hc.2.1]
      · exact hr.1 ac h
    · intro pr hpr
      rw [pairsAList] at hpr
      rcases List.mem_append.mp hpr with h | h
      · exact hc.2.2 pr h
      · exact hr.2 pr h
termination_by structural cs

end

/-- Fully evaluated layout of the example tree `(A:1.0,(B:1.0,C:1.0):1.0);`:
x-coordinates A=1, B=C=2, inner=1, root=0; tip y-coordinates A=0, B=1, C=2;
inner y = (1+2)/2 = 3/2; root y = (0+2)/2 = 1 (the `y_positions` entries at
the root are the final counters 1 and 3, each minus 1). -/
theorem annotate_exTree :
    annotate exTree
      = ACl.mk none none none 0 1
          [ACl.mk (some "A") (some 1) none 1 0 [],
           ACl.mk none (some 1) none 1 (3 / 2)
             [ACl.mk (some "B") (some 1) none 2 1 [],
              ACl.mk (some "C") (some 1) none 2 2 []]] := by
  norm_num [annotate, exTree, assignCoordinates, assignList]

/-- C1 counterexample: on the spec's own example tree the code assigns the
root `y = 1`, while the arithmetic mean of its children's y-coordinates
(`0` for tip A and `3/2` for the inner node) is `3/4`; the claimed
`y(n) = mean(y(c) for c in children(n))` therefore fails at the root. -/
theorem internal_mean_y_counterexample :
    ((annotate exTree).clades.map ACl.y) = [0, 3 / 2]
      ∧ (annotate exTree).y = 1
      ∧ (((annotate exTree).clades.map ACl.y).sum
            / (((annotate exTree).clades.map ACl.y).length : ℚ)) = 3 / 4
      ∧ (annotate exTree).y
          ≠ ((annotate exTree).clades.map ACl.y).sum
              / (((annotate exTree).clades.map ACl.y).length : ℚ) := by
  rw [annotate_exTree]
  norm_num [ACl.clades, ACl.y]

/-- C1 (amended): for every internal node of the laid-out tree, the assigned
y-coordinate is the arithmetic mean over the children of the y-coordinate of
the last (rightmost) terminal of each child's subtree — not the mean of the
children's own y-coordinates.  (For children that are themselves terminals
the two notions agree, which is why the inner node of the example still gets
`y = 3/2`.) -/
theorem internal_y_is_mean_of_child_subtree_last_tips (t : Clade) :
    ∀ n ∈ allNodesA (annotate t), n.clades ≠ [] →
      n.y = ((n.clades.map lastTipY).sum) / (n.clades.length : ℚ) :=
  ySpec t 0 0

/-- Witness for the amended C1 at the root of the example tree. -/
theorem internal_y_mean_witness :
    (annotate exTree).y
      = (((annotate exTree).clades.map lastTipY).sum)
          / (((annotate exTree).clades.length : ℚ)) := by
  refine internal_y_is_mean_of_child_subtree_last_tips exTree (annotate exTree) ?_ ?_
  · rw [annotate_exTree, allNodesA_mk]
    exact List.mem_cons_self _ _
  · rw [annotate_exTree]
    simp [ACl.clades]

/-- C2 (confirmed): for a tree whose root carries no branch length (the
normal situation for a parsed and rerooted tree; a present length of `0.0`
behaves identically), the laid-out x-coordinates are cumulative branch
lengths from the root: `x(root) = 0` and `x(child) = x(parent) +
branch_length(child)` with an absent branch length read as the default
`0.0`. -/
theorem x_additivity (t : Clade)
    (h : t.branchLength = none ∨ t.branchLength = some 0) :
    (annotate t).x = 0
      ∧ ∀ pr ∈ pairsA (annotate t), pr.2.x = pr.1.x + pr.2.branchLength.getD 0 := by
  have hx := xSpec t 0 0
  refine ⟨?_, hx.2.2⟩
  rw [show (annotate t).x = (assignCoordinates t 0 0).1.x from rfl, hx.1]
  rcases h with h | h <;> rw [h] <;> norm_num

/-- Witness for C2 on the example tree (whose root has no branch length). -/
theorem x_additivity_witness : (annotate exTree).x = 0 :=
  (x_additivity exTree (Or.inl rfl)).1

/-- C3 (confirmed): with the hard-coded spacing unit 1, the terminal nodes
of the laid-out tree receive, in leaf declaration (left-to-right traversal)
order, exactly the y-values `0, 1, …, N-1` where `N` is the tip count —
each value exactly once. -/
theorem tip_y_bijection (t : Clade) :
    ((terminalsA (annotate t)).map ACl.y)
      = (List.range (terminalsA (annotate t)).length).map (fun i : ℕ => (i : ℚ)) := by
  have h := (tipsSpec t 0 0).1
  rw [show terminalsA (annotate t) = terminalsA (assignCoordinates t 0 0).1 from rfl, h,
    rangeQ_eq_map_range]
  apply List.map_congr_left
  intro i _
  norm_num

/-- The tip-marker loop renders exactly the tips that have a metadata row:
the positions of the emitted tip markers are the coordinates of the matched
tips in scan order, and the MLST squares are in one-to-one correspondence
with them; tips without a row are skipped silently. -/
theorem tipLoop_proj (md : List Row) (lm mm : List (String × String)) (mx : ℚ)
    (sh : Bool) :
    ∀ (tips : List ACl) (sL sM : List String),
      ((tipLoop md lm mm mx sh tips sL sM).1.map (fun m => (m.x, m.y)))
          = (tips.filter (fun tc => (findRow md tc.name).isSome)).map
              (fun tc => (tc.x, tc.y))
        ∧ (tipLoop md lm mm mx sh tips sL sM).2.length
          = (tips.filter (fun tc => (findRow md tc.name).isSome)).length := by
  intro tips
  induction tips with
  | nil => intro sL sM; simp [tipLoop]
  | cons tc rest ih =>
    intro sL sM
    cases hfr : findRow md tc.name with
    | none => simp [tipLoop, hfr, ih]
    | some row => simp [tipLoop, hfr, ih]

/-- C4 counterexample: in the two-tip tree `(A:1.0,D:1.0);` with metadata
containing a row for A only, tip D produces no marker at all — it is not
rendered with an `"Unknown"` category; only A's marker survives. -/
theorem missing_row_counterexample :
    (terminalsA (annotate exTreeAD)).length = 2
      ∧ (createTreePlot exTreeAD exMdA true none none).tipMarkers.length = 1
      ∧ ((createTreePlot exTreeAD exMdA true none none).tipMarkers.map
          (fun m => m.label)) = [some "A"] := by
  have ha : annotate exTreeAD
      = ACl.mk none none none 0 (1 / 2)
          [ACl.mk (some "A") (some 1) none 1 0 [],
           ACl.mk (some "D") (some 1) none 1 1 []] := by
    norm_num [annotate, exTreeAD, assignCoordinates, assignList]
  refine ⟨?_, ?_, ?_⟩ <;>
    simp +decide [createTreePlot, ha, terminalsA, terminalsAList, tipLoop, findRow,
      exMdA, ACl.name, locVal, mlstVal]

/-- C4 (amended): a missing metadata row never raises an error — the layout
is total — but the affected tip is dropped from the output rather than
rendered as `"Unknown"`: the tip markers are exactly the matched tips (in
scan order, at the tips' coordinates), and likewise one MLST square per
matched tip.  The `"Unknown"` sentinel only replaces NaN location/MLST cells
inside an existing row. -/
theorem missing_metadata_row_skips_tip (t : Clade) (md : List Row) (sh : Bool) :
    ((createTreePlot t md sh none none).tipMarkers.map (fun m => (m.x, m.y))
        = ((terminalsA (annotate t)).filter
            (fun tc => (findRow md tc.name).isSome)).map (fun tc => (tc.x, tc.y)))
      ∧ (createTreePlot t md sh none none).mlstMarkers.length
        = ((terminalsA (annotate t)).filter
            (fun tc => (findRow md tc.name).isSome)).length := by
  have h := tipLoop_proj md (colorMapOf plotlyPalette (md.map locVal))
      (colorMapOf vividPalette (md.map mlstVal))
      (maxPy ((allNodesA (annotate t)).map ACl.x) 0 + 1 / 50) sh
      (terminalsA (annotate t)) [] []
  simp only [createTreePlot]
  exact ⟨h.1, h.2⟩

theorem sdiffInsertOfMem {v : String} {A S : Finset String} (h : v ∈ S) :
    (insert v A) \ S = A \ S := by
  ext x
  simp only [Finset.mem_sdiff, Finset.mem_insert]
  constructor
  · rintro ⟨hx | hx, hs⟩
    · exact absurd (hx ▸ h) hs
    · exact ⟨hx, hs⟩
  · rintro ⟨hx, hs⟩
    exact ⟨Or.inr hx, hs⟩

theorem sdiffInsertRight (v : String) (A S : Finset String) :
    A \ insert v S = (A \ S).erase v := by
  ext x
  simp only [Finset.mem_sdiff, Finset.mem_insert, Finset.mem_erase]
  tauto

theorem cardInsertErase (v : String) (X : Finset String) :
    (insert v X).card = (X.erase v).card + 1 := by
  have h : insert v X = insert v (X.erase v) := by
    ext x
    simp only [Finset.mem_insert, Finset.mem_erase]
    tauto
  rw [h, Finset.card_insert_of_not_mem (Finset.not_mem_erase _ _)]

theorem insertSdiffOfNotMem {v : String} {S : Finset String} (A : Finset String)
    (h : v ∉ S) : (insert v A) \ S = insert v (A \ S) := by
  ext x
  simp only [Finset.mem_sdiff, Finset.mem_insert]
  constructor
  · rintro ⟨hx | hx, hs⟩
    · exact Or.inl hx
    · exact Or.inr ⟨hx, hs⟩
  · rintro (hx | ⟨hx, hs⟩)
    · exact ⟨Or.inl hx, hx ▸ h⟩
    · exact ⟨Or.inr hx, hs⟩

theorem dictGet_head (w c d : String) (rest : List (String × String)) :
    dictGet ((w, c) :: rest) w d = c := by
  simp [dictGet, List.find?]

theorem dictGet_skip (w u c d : String) (rest : List (String × String))
    (h : w ≠ u) : dictGet ((w, c) :: rest) u d = dictGet rest u d := by
  simp [dictGet, List.find?, beq_eq_false_iff_ne.mpr h]

/-- Looking up, in the palette dictionary built from a value column, a value
whose first occurrence in the column is at index `i`, yields the palette
color whose index is the number of distinct values strictly before `i`
(offset by the enumeration start and the already-seen set). -/
theorem colorMap_lookup (pal : List String) (v : String) :
    ∀ (l seen : List String) (k i : ℕ),
      i < l.length → l.getD i "" = v → v ∉ l.take i → v ∉ seen →
      dictGet (((uniqueAux seen l).enumFrom k).map
          (fun p => (p.2, paletteColor pal p.1))) v "gray"
        = paletteColor pal (k + ((l.take i).toFinset \ seen.toFinset).card) := by
  intro l
  induction l with
  | nil => intro seen k i hi _ _ _; simp at hi
  | cons w vs ih =>
    intro seen k i hi hv hfirst hseen
    cases i with
    | zero =>
      have hw : w = v := by simpa using hv
      subst hw
      rw [show uniqueAux seen (w :: vs) = w :: uniqueAux (w :: seen) vs from by
        simp [uniqueAux, hseen]]
      rw [show List.enumFrom k (w :: uniqueAux (w :: seen) vs)
            = (k, w) :: List.enumFrom (k + 1) (uniqueAux (w :: seen) vs) from rfl]
      simp only [List.map_cons]
      rw [dictGet_head]
      simp
    | succ i =>
      have hvne : v ≠ w := by
        intro h
        apply hfirst
        rw [List.take_succ_cons]
        exact h ▸ List.mem_cons_self _ _
      have hv' : vs.getD i "" = v := by simpa using hv
      have hfirst' : v ∉ vs.take i := fun h => hfirst (by
        rw [List.take_succ_cons]
        exact List.mem_cons_of_mem _ h)
      have hi' : i < vs.length := by
        simp only [List.length_cons] at hi
        omega
      by_cases hw : w ∈ seen
      · rw [show uniqueAux seen (w :: vs) = uniqueAux seen vs from by
          simp [uniqueAux, hw]]
        rw [ih seen k i hi' hv' hfirst' hseen]
        congr 2
        rw [List.take_succ_cons, List.toFinset_cons,
          sdiffInsertOfMem (List.mem_toFinset.mpr hw)]
      · rw [show uniqueAux seen (w :: vs) = w :: uniqueAux (w :: seen) vs from by
          simp [uniqueAux, hw]]
        rw [show List.enumFrom k (w :: uniqueAux (w :: seen) vs)
              = (k, w) :: List.enumFrom (k + 1) (uniqueAux (w :: seen) vs) from rfl]
        simp only [List.map_cons]
        rw [dictGet_skip _ _ _ _ _ (fun h => hvne h.symm)]
        have hseen' : v ∉ w :: seen := by
          intro h
          rcases List.mem_cons.mp h with h | h
          · exact hvne h
          · exact hseen h
        rw [ih (w :: seen) (k + 1) i hi' hv' hfirst' hseen']
        rw [List.take_succ_cons, List.toFinset_cons, List.toFinset_cons,
          sdiffInsertRight,
          insertSdiffOfNotMem _ (fun h => hw (List.mem_toFinset.mp h)),
          cardInsertErase]
        congr 1
        omega

/-- C5 counterexample: with metadata rows ordered B (Tokyo) then A (Paris)
but tips scanned A then B, the first-scanned tip's value "Paris" receives
palette color 1 (`#EF553B`), not palette color 0 (`#636EFA`): colors follow
first occurrence in the metadata table, not in the tip scan. -/
theorem color_order_counterexample :
    ((terminalsA (annotate exTreeAB)).map (fun tc => (tc.name, tipLocVal exMdBA tc)))
        = [(some "A", "Paris"), (some "B", "Tokyo")]
      ∧ ((createTreePlot exTreeAB exMdBA true none none).tipMarkers.map
          (fun m => m.color)) = ["#EF553B", "#636EFA"]
      ∧ plotlyPalette.getD 0 "gray" = "#636EFA" := by
  have ha : annotate exTreeAB
      = ACl.mk none none none 0 (1 / 2)
          [ACl.mk (some "A") (some 1) none 1 0 [],
           ACl.mk (some "B") (some 1) none 1 1 []] := by
    norm_num [annotate, exTreeAB, assignCoordinates, assignList]
  refine ⟨?_, ?_, ?_⟩ <;>
    simp +decide [createTreePlot, ha, terminalsA, terminalsAList, tipLoop, findRow,
      exMdBA, ACl.name, locVal, mlstVal, tipLocVal, colorMapOf, uniqueKeepFirst,
      uniqueAux, dictGet, paletteColor, plotlyPalette, List.enum, List.enumFrom,
      List.find?]

/-- C5 (amended): for each categorical field independently, colors are
assigned by first-occurrence order while scanning the METADATA TABLE ROWS
(in file order), not the tips: the value whose first occurrence in the
column is at row `i` is mapped to the palette color with index equal to the
number of distinct values among rows before `i`, taken modulo the palette
length (`paletteColor`); the assignment is neither alphabetical nor by
frequency. -/
theorem color_first_occurrence_by_metadata_rows (md : List Row) (i j : ℕ)
    (hi : i < md.length)
    (hfirstL : (md.map locVal).getD i "" ∉ (md.map locVal).take i)
    (hj : j < md.length)
    (hfirstM : (md.map mlstVal).getD j "" ∉ (md.map mlstVal).take j) :
    dictGet (colorMapOf plotlyPalette (md.map locVal))
        ((md.map locVal).getD i "") "gray"
        = paletteColor plotlyPalette (((md.map locVal).take i).toFinset.card)
      ∧ dictGet (colorMapOf vividPalette (md.map mlstVal))
          ((md.map mlstVal).getD j "") "gray"
        = paletteColor vividPalette (((md.map mlstVal).take j).toFinset.card) := by
  constructor
  · have h := colorMap_lookup plotlyPalette ((md.map locVal).getD i "")
      (md.map locVal) [] 0 i (by simpa using hi) rfl hfirstL (by simp)
    rw [colorMapOf, uniqueKeepFirst, show List.enum (uniqueAux [] (md.map locVal))
        = List.enumFrom 0 (uniqueAux [] (md.map locVal)) from rfl, h]
    simp
  · have h := colorMap_lookup vividPalette ((md.map mlstVal).getD j "")
      (md.map mlstVal) [] 0 j (by simpa using hj) rfl hfirstM (by simp)
    rw [colorMapOf, uniqueKeepFirst, show List.enum (uniqueAux [] (md.map mlstVal))
        = List.enumFrom 0 (uniqueAux [] (md.map mlstVal)) from rfl, h]
    simp

/-- Witness for the amended C5 at the concrete metadata table `exMdBA`
(first occurrence of "Paris" is row 1, preceded by one distinct value). -/
theorem color_first_occurrence_witness :
    dictGet (colorMapOf plotlyPalette (exMdBA.map locVal)) "Paris" "gray"
      = "#EF553B" := by
  have h := (color_first_occurrence_by_metadata_rows exMdBA 1 0 (by decide)
    (by decide) (by decide) (by decide)).1
  simpa [exMdBA, locVal, paletteColor, plotlyPalette] using h

theorem countP_via_map {α : Type} (f : α → Bool) (l : List α) :
    l.countP f = (l.map f).countP (fun b => b) := by
  rw [List.countP_map]
  rfl

/-- The number of `true` flags a `seen`-set scan produces is the number of
distinct scanned values not already seen. -/
theorem legendFlags_countP (vals : List String) :
    ∀ seen : List String,
      (legendFlags seen vals).countP (fun b => b)
        = (vals.toFinset \ seen.toFinset).card := by
  induction vals with
  | nil => intro seen; simp [legendFlags]
  | cons v vs ih =>
    intro seen
    by_cases hv : v ∈ seen
    · rw [show legendFlags seen (v :: vs) = false :: legendFlags seen vs from by
        simp [legendFlags, hv]]
      rw [List.countP_cons, ih seen]
      simp only [List.toFinset_cons, sdiffInsertOfMem (List.mem_toFinset.mpr hv)]
      simp
    · rw [show legendFlags seen (v :: vs) = true :: legendFlags (v :: seen) vs from by
        simp [legendFlags, hv]]
      rw [List.countP_cons, ih (v :: seen)]
      simp only [List.toFinset_cons]
      rw [sdiffInsertRight,
        insertSdiffOfNotMem _ (fun h => hv (List.mem_toFinset.mp h)),
        cardInsertErase]
      simp

/-- The i-th flag of a `seen`-set scan is on iff the i-th value neither lies
in the initial seen set nor occurs earlier in the scanned list. -/
theorem legendFlags_getD (vals : List String) :
    ∀ (seen : List String) (i : ℕ), i < vals.length →
      (legendFlags seen vals).getD i false
        = decide (vals.getD i "" ∉ seen ∧ vals.getD i "" ∉ vals.take i) := by
  induction vals with
  | nil => intro seen i hi; simp at hi
  | cons v vs ih =>
    intro seen i hi
    cases i with
    | zero =>
      by_cases hv : v ∈ seen
      · rw [show legendFlags seen (v :: vs) = false :: legendFlags seen vs from by
          simp [legendFlags, hv]]
        simp [hv]
      · rw [show legendFlags seen (v :: vs) = true :: legendFlags (v :: seen) vs from by
          simp [legendFlags, hv]]
        simp [hv]
    | succ i =>
      have hi' : i < vs.length := by
        simp only [List.length_cons] at hi
        omega
      rw [List.getD_cons_succ, List.take_succ_cons]
      by_cases hv : v ∈ seen
      · rw [show legendFlags seen (v :: vs) = false :: legendFlags seen vs from by
          simp [legendFlags, hv]]
        rw [List.getD_cons_succ, ih seen i hi', decide_eq_decide]
        constructor
        · rintro ⟨h1, h2⟩
          refine ⟨h1, ?_⟩
          intro hm
          rcases List.mem_cons.mp hm with hm | hm
          · exact h1 (hm ▸ hv)
          · exact h2 hm
        · rintro ⟨h1, h2⟩
          exact ⟨h1, fun hm => h2 (List.mem_cons_of_mem _ hm)⟩
      · rw [show legendFlags seen (v :: vs) = true :: legendFlags (v :: seen) vs from by
          simp [legendFlags, hv]]
        rw [List.getD_cons_succ, ih (v :: seen) i hi', decide_eq_decide]
        constructor
        · rintro ⟨h1, h2⟩
          refine ⟨fun hm => h1 (List.mem_cons_of_mem _ hm), ?_⟩
          intro hm
          rcases List.mem_cons.mp hm with hm | hm
          · exact h1 (hm ▸ List.mem_cons_self _ _)
          · exact h2 hm
        · rintro ⟨h1, h2⟩
          refine ⟨?_, fun hm => h2 (List.mem_cons_of_mem _ hm)⟩
          intro hm
          rcases List.mem_cons.mp hm with hm | hm
          · exact h2 (hm ▸ List.mem_cons_self _ _)
          · exact h1 hm

/-- When every tip has a metadata row, the tip loop's legend flags are the
`seen`-set scan of the tips' category values, and each marker's color is the
palette dictionary lookup of its tip's category value — for both fields. -/
theorem tipLoop_legend (md : List Row) (lm mm : List (String × String)) (mx : ℚ)
    (sh : Bool) :
    ∀ (tips : List ACl) (sL sM : List String),
      (∀ tc ∈ tips, (findRow md tc.name).isSome = true) →
      ((tipLoop md lm mm mx sh tips sL sM).1.map (fun m => m.showLegend)
          = legendFlags sL (tips.map (tipLocVal md)))
        ∧ ((tipLoop md lm mm mx sh tips sL sM).1.map (fun m => m.color)
          = (tips.map (tipLocVal md)).map (fun v => dictGet lm v "gray"))
        ∧ ((tipLoop md lm mm mx sh tips sL sM).2.map (fun m => m.showLegend)
          = legendFlags sM (tips.map (tipMlstVal md)))
        ∧ ((tipLoop md lm mm mx sh tips sL sM).2.map (fun m => m.color)
          = (tips.map (tipMlstVal md)).map (fun v => dictGet mm v "gray")) := by
  intro tips
  induction tips with
  | nil => intro sL sM _; simp [tipLoop, legendFlags]
  | cons tc rest ih =>
    intro sL sM H
    have hsome := H tc (List.mem_cons_self _ _)
    obtain ⟨row, hfr⟩ := Option.isSome_iff_exists.mp hsome
    have Hrest : ∀ tc' ∈ rest, (findRow md tc'.name).isSome = true :=
      fun tc' h => H tc' (List.mem_cons_of_mem _ h)
    have hloc : tipLocVal md tc = locVal row := by simp [tipLocVal, hfr]
    have hmst : tipMlstVal md tc = mlstVal row := by simp [tipMlstVal, hfr]
    have ih1 := ih sL sM Hrest
    have ih2 := ih (locVal row :: sL) sM Hrest
    have ih3 := ih sL (mlstVal row :: sM) Hrest
    have ih4 := ih (locVal row :: sL) (mlstVal row :: sM) Hrest
    by_cases hvl : locVal row ∈ sL <;> by_cases hvm : mlstVal row ∈ sM <;>
      simp [tipLoop, hfr, hloc, hmst, legendFlags, hvl, hvm,
        ih1.1, ih1.2.1, ih1.2.2.1, ih1.2.2.2,
        ih2.1, ih2.2.1, ih2.2.2.1, ih2.2.2.2,
        ih3.1, ih3.2.1, ih3.2.2.1, ih3.2.2.2,
        ih4.1, ih4.2.1, ih4.2.2.1, ih4.2.2.2]

/-- C6 (confirmed): when every tip has a metadata row, then, for each
categorical field independently, the number of legend-visible markers equals
the number of distinct category values among the tips; a marker carries the
legend entry iff its tip is the first (in scan order) carrying that value;
and every marker's color is a function of its tip's category value alone, so
all later tips with the same value get the identical color with the legend
suppressed. -/
theorem legend_dedup (t : Clade) (md : List Row) (sh : Bool)
    (H : ∀ tc ∈ terminalsA (annotate t), (findRow md tc.name).isSome = true) :
    ((createTreePlot t md sh none none).tipMarkers.countP (fun m => m.showLegend)
        = ((terminalsA (annotate t)).map (tipLocVal md)).toFinset.card)
      ∧ ((createTreePlot t md sh none none).mlstMarkers.countP (fun m => m.showLegend)
        = ((terminalsA (annotate t)).map (tipMlstVal md)).toFinset.card)
      ∧ ((createTreePlot t md sh none none).tipMarkers.map (fun m => m.color)
        = ((terminalsA (annotate t)).map (tipLocVal md)).map
            (fun v => dictGet (colorMapOf plotlyPalette (md.map locVal)) v "gray"))
      ∧ ((createTreePlot t md sh none none).mlstMarkers.map (fun m => m.color)
        = ((terminalsA (annotate t)).map (tipMlstVal md)).map
            (fun v => dictGet (colorMapOf vividPalette (md.map mlstVal)) v "gray"))
      ∧ (∀ i, i < (terminalsA (annotate t)).length →
          ((createTreePlot t md sh none none).tipMarkers.map
              (fun m => m.showLegend)).getD i false
            = decide ((((terminalsA (annotate t)).map (tipLocVal md)).getD i "")
                ∉ (((terminalsA (annotate t)).map (tipLocVal md)).take i)))
      ∧ (∀ i, i < (terminalsA (annotate t)).length →
          ((createTreePlot t md sh none none).mlstMarkers.map
              (fun m => m.showLegend)).getD i false
            = decide ((((terminalsA (annotate t)).map (tipMlstVal md)).getD i "")
                ∉ (((terminalsA (annotate t)).map (tipMlstVal md)).take i))) := by
  have h := tipLoop_legend md (colorMapOf plotlyPalette (md.map locVal))
      (colorMapOf vividPalette (md.map mlstVal))
      (maxPy ((allNodesA (annotate t)).map ACl.x) 0 + 1 / 50) sh
      (terminalsA (annotate t)) [] [] H
  simp only [createTreePlot]
  refine ⟨?_, ?_, h.2.1, h.2.2.2, ?_, ?_⟩
  · rw [countP_via_map, h.1, legendFlags_countP]
    simp
  · rw [countP_via_map, h.2.2.1, legendFlags_countP]
    simp
  · intro i hi
    rw [h.1, legendFlags_getD _ _ _ (by simpa using hi), decide_eq_decide]
    simp
  · intro i hi
    rw [h.2.2.1, legendFlags_getD _ _ _ (by simpa using hi), decide_eq_decide]
    simp

/-- Witness for C6 on the spec's example (tips A, B share "Paris", C has
"Tokyo"): exactly two legend-visible location markers. -/
theorem legend_dedup_witness :
    (createTreePlot exTree exMd true none none).tipMarkers.countP
      (fun m => m.showLegend) = 2 := by
  have H : ∀ tc ∈ terminalsA (annotate exTree), (findRow exMd tc.name).isSome = true := by
    rw [annotate_exTree]
    simp +decide [terminalsA, terminalsAList, findRow, exMd, ACl.name]
  rw [(legend_dedup exTree exMd true H).1, annotate_exTree]
  simp +decide [terminalsA, terminalsAList, tipLocVal, findRow, exMd, ACl.name, locVal]

theorem sizeA_pos (a : ACl) : 1 ≤ sizeA a := by
  cases a
  simp [sizeA]

theorem sizeAList_append (l1 l2 : List ACl) :
    sizeAList (l1 ++ l2) = sizeAList l1 + sizeAList l2 := by
  induction l1 with
  | nil => simp [sizeAList]
  | cons c l1 ih => simp [sizeAList, ih]; omega

theorem sizeAList_flatMap_clades (q : List ACl) :
    sizeAList (q.flatMap ACl.clades) + q.length = sizeAList q := by
  induction q with
  | nil => simp [sizeAList]
  | cons c q ih =>
    rw [List.flatMap_cons, sizeAList_append]
    have hc : sizeA c = 1 + sizeAList c.clades := by
      cases c
      simp [sizeA, ACl.clades]
    simp only [List.length_cons, sizeAList, hc]
    omega

theorem allNodesA_eq (c : ACl) :
    allNodesA c = c :: c.clades.flatMap allNodesA := by
  cases c
  rw [allNodesA_mk, allNodesAList_eq_flatMap]
  rfl

/-- One breadth-first level step preserves the multiset of reachable nodes. -/
theorem flatMap_allNodes_decomp (q : List ACl) :
    (q.flatMap allNodesA).Perm (q ++ (q.flatMap ACl.clades).flatMap allNodesA) := by
  induction q with
  | nil => simp
  | cons c cs ih =>
    rw [List.flatMap_cons, List.flatMap_cons, List.flatMap_append, allNodesA_eq c]
    simp only [List.cons_append]
    apply List.Perm.cons
    have h1 : (c.clades.flatMap allNodesA ++ cs.flatMap allNodesA).Perm
        (c.clades.flatMap allNodesA ++ (cs ++ (cs.flatMap ACl.clades).flatMap allNodesA)) :=
      ih.append_left _
    have h2 : (c.clades.flatMap allNodesA ++ (cs ++ (cs.flatMap ACl.clades).flatMap allNodesA)).Perm
        (cs ++ (c.clades.flatMap allNodesA ++ (cs.flatMap ACl.clades).flatMap allNodesA)) := by
      rw [← List.append_assoc, ← List.append_assoc]
      exact List.perm_append_comm.append_right _
    exact h1.trans h2

theorem bfsLevels_nil_q (fuel : ℕ) : bfsLevels fuel [] = [] := by
  cases fuel <;> simp [bfsLevels]

/-- With enough fuel, the breadth-first traversal enumerates exactly the
nodes of the queued subtrees (as a multiset). -/
theorem bfsLevels_perm (fuel : ℕ) :
    ∀ q : List ACl, sizeAList q ≤ fuel →
      (bfsLevels fuel q).Perm (q.flatMap allNodesA) := by
  induction fuel with
  | zero =>
    intro q hq
    cases q with
    | nil => simp [bfsLevels]
    | cons c cs =>
      exfalso
      have := sizeA_pos c
      simp [sizeAList] at hq
      omega
  | succ fuel ih =>
    intro q hq
    cases q with
    | nil => simp [bfsLevels]
    | cons c cs =>
      rw [show bfsLevels (fuel + 1) (c :: cs)
            = (c :: cs) ++ bfsLevels fuel ((c :: cs).flatMap ACl.clades) from rfl]
      have hsz : sizeAList ((c :: cs).flatMap ACl.clades) ≤ fuel := by
        have h := sizeAList_flatMap_clades (c :: cs)
        simp only [List.length_cons] at h
        omega
      have h1 := (ih _ hsz).append_left (c :: cs)
      exact h1.trans (flatMap_allNodes_decomp (c :: cs)).symm

theorem levelOrder_perm (a : ACl) : (levelOrder a).Perm (allNodesA a) := by
  have h := bfsLevels_perm (sizeA a) [a] (by simp [sizeAList])
  simpa using h

theorem self_mem_allNodesA (a : ACl) : a ∈ allNodesA a := by
  rw [allNodesA_eq]
  exact List.mem_cons_self _ _

theorem self_mem_levelOrder (a : ACl) : a ∈ levelOrder a :=
  (levelOrder_perm a).mem_iff.mpr (self_mem_allNodesA a)

theorem foldlMin_mem (vs : List ℚ) : ∀ v : ℚ, vs.foldl min v ∈ v :: vs := by
  induction vs with
  | nil => intro v; simp
  | cons w vs ih =>
    intro v
    rw [List.foldl_cons]
    rcases List.mem_cons.mp (ih (min v w)) with h | h
    · rcases min_choice v w with hm | hm
      · rw [h, hm]; exact List.mem_cons_self _ _
      · rw [h, hm]; exact List.mem_cons_of_mem _ (List.mem_cons_self _ _)
    · exact List.mem_cons_of_mem _ (List.mem_cons_of_mem _ h)

theorem foldlMin_le (vs : List ℚ) :
    ∀ v : ℚ, ∀ u ∈ v :: vs, vs.foldl min v ≤ u := by
  induction vs with
  | nil =>
    intro v u hu
    simp at hu
    simp [hu]
  | cons w vs ih =>
    intro v u hu
    rw [List.foldl_cons]
    have hhead : vs.foldl min (min v w) ≤ min v w :=
      ih (min v w) _ (List.mem_cons_self _ _)
    rcases List.mem_cons.mp hu with h | h
    · subst h
      exact le_trans hhead (min_le_left _ _)
    · rcases List.mem_cons.mp h with h | h
      · subst h
        exact le_trans hhead (min_le_right _ _)
      · exact ih (min v w) u (List.mem_cons_of_mem _ h)

theorem foldlMax_mem (vs : List ℚ) : ∀ v : ℚ, vs.foldl max v ∈ v :: vs := by
  induction vs with
  | nil => intro v; simp
  | cons w vs ih =>
    intro v
    rw [List.foldl_cons]
    rcases List.mem_cons.mp (ih (max v w)) with h | h
    · rcases max_choice v w with hm | hm
      · rw [h, hm]; exact List.mem_cons_self _ _
      · rw [h, hm]; exact List.mem_cons_of_mem _ (List.mem_cons_self _ _)
    · exact List.mem_cons_of_mem _ (List.mem_cons_of_mem _ h)

theorem foldlMax_ge (vs : List ℚ) :
    ∀ v : ℚ, ∀ u ∈ v :: vs, u ≤ vs.foldl max v := by
  induction vs with
  | nil =>
    intro v u hu
    simp at hu
    simp [hu]
  | cons w vs ih =>
    intro v u hu
    rw [List.foldl_cons]
    have hhead : max v w ≤ vs.foldl max (max v w) :=
      ih (max v w) _ (List.mem_cons_self _ _)
    rcases List.mem_cons.mp hu with h | h
    · subst h
      exact le_trans (le_max_left _ _) hhead
    · rcases List.mem_cons.mp h with h | h
      · subst h
        exact le_trans (le_max_right _ _) hhead
      · exact ih (max v w) u (List.mem_cons_of_mem _ h)

mutual

/-- Summing `1 + (number of children)` segment counts over all nodes of a
subtree gives `internal count + (node count - 1)`, stated addition-only. -/
theorem segSum (a : ACl) :
    ((allNodesA a).map (fun n => (cladeSegs n).length)).sum + 1
      = (allNodesA a).countP (fun n => !n.clades.isEmpty)
        + (allNodesA a).length := by
  match a with
  | .mk nm bl cf x y [] =>
    rw [allNodesA_mk]
    simp [allNodesAList, cladeSegs, ACl.clades]
  | .mk nm bl cf x y (c :: cs) =>
    have hl := segSumList (c :: cs)
    rw [allNodesA_mk]
    rw [List.map_cons, List.sum_cons, List.countP_cons, List.length_cons]
    have hseg : (cladeSegs (ACl.mk nm bl cf x y (c :: cs))).length
        = 1 + (c :: cs).length := by
      simp [cladeSegs, ACl.clades]
      omega
    have hflag : (!(ACl.mk nm bl cf x y (c :: cs)).clades.isEmpty) = true := by
      simp [ACl.clades]
    rw [hseg, hflag]
    simp only [List.length_cons, if_true] at *
    omega
termination_by structural a

theorem segSumList (cs : List ACl) :
    ((allNodesAList cs).map (fun n => (cladeSegs n).length)).sum + cs.length
      = (allNodesAList cs).countP (fun n => !n.clades.isEmpty)
        + (allNodesAList cs).length := by
  match cs with
  | [] => simp [allNodesAList]
  | c :: rest =>
    have hc := segSum c
    have hr := segSumList rest
    rw [show allNodesAList (c :: rest) = allNodesA c ++ allNodesAList rest from rfl]
    rw [List.map_append, List.sum_append, List.countP_append, List.length_append,
      List.length_cons]
    omega
termination_by structural cs

end

/-- C7 (confirmed): every internal node with k children contributes exactly
1 + k segments: first one vertical segment at `x = x(n)` spanning from the
minimum to the maximum of the children's y-coordinates, then one horizontal
segment per child from `(x(n), y(child))` to `(x(child), y(child))`; all of
them appear in the figure's line traces.  Globally the number of emitted
segments is (internal count) + (node count - 1) — in particular no segment
is emitted for the root's own non-existent incoming branch (which would make
it (internal count) + (node count)). -/
theorem segment_builder (t : Clade) (md : List Row) (sh : Bool) :
    (∀ n ∈ allNodesA (annotate t), n.clades ≠ [] →
        (cladeSegs n).length = 1 + n.clades.length
          ∧ (∃ sg, (cladeSegs n).head? = some sg
              ∧ sg.x0 = n.x ∧ sg.x1 = n.x
              ∧ sg.y0 ∈ n.clades.map ACl.y
              ∧ (∀ u ∈ n.clades.map ACl.y, sg.y0 ≤ u)
              ∧ sg.y1 ∈ n.clades.map ACl.y
              ∧ (∀ u ∈ n.clades.map ACl.y, u ≤ sg.y1))
          ∧ (cladeSegs n).tail
              = n.clades.map (fun ch => Seg.mk n.x ch.y ch.x ch.y)
          ∧ ∀ sg ∈ cladeSegs n, sg ∈ (createTreePlot t md sh none none).lineTraces)
      ∧ ((createTreePlot t md sh none none).lineTraces.length + 1
          = (allNodesA (annotate t)).countP (fun n => !n.clades.isEmpty)
            + (allNodesA (annotate t)).length) := by
  constructor
  · intro n hn hne
    have hmem : ∀ sg ∈ cladeSegs n, sg ∈ (createTreePlot t md sh none none).lineTraces := by
      intro sg hsg
      simp only [createTreePlot]
      exact List.mem_flatMap.mpr ⟨n, (levelOrder_perm (annotate t)).mem_iff.mpr hn, hsg⟩
    cases n with
    | mk nm bl cf x y cs =>
      cases cs with
      | nil => exact absurd (by simp [ACl.clades]) hne
      | cons c cs =>
        refine ⟨?_, ?_, ?_, hmem⟩
        · simp [cladeSegs, ACl.clades]
          omega
        · refine ⟨⟨x, minPy ((c :: cs).map ACl.y) 0, x, maxPy ((c :: cs).map ACl.y) 0⟩,
            ?_, rfl, rfl, ?_, ?_, ?_, ?_⟩
          · simp [cladeSegs, ACl.clades, ACl.x]
          · rw [show minPy ((c :: cs).map ACl.y) 0 = (cs.map ACl.y).foldl min c.y from by
              simp [minPy]]
            simpa [ACl.clades] using foldlMin_mem (cs.map ACl.y) c.y
          · rw [show minPy ((c :: cs).map ACl.y) 0 = (cs.map ACl.y).foldl min c.y from by
              simp [minPy]]
            intro u hu
            exact foldlMin_le (cs.map ACl.y) c.y u (by simpa [ACl.clades] using hu)
          · rw [show maxPy ((c :: cs).map ACl.y) 0 = (cs.map ACl.y).foldl max c.y from by
              simp [maxPy]]
            simpa [ACl.clades] using foldlMax_mem (cs.map ACl.y) c.y
          · rw [show maxPy ((c :: cs).map ACl.y) 0 = (cs.map ACl.y).foldl max c.y from by
              simp [maxPy]]
            intro u hu
            exact foldlMax_ge (cs.map ACl.y) c.y u (by simpa [ACl.clades] using hu)
        · simp [cladeSegs, ACl.clades, ACl.x]
  · have hperm : ((levelOrder (annotate t)).map (fun n => (cladeSegs n).length)).Perm
        ((allNodesA (annotate t)).map (fun n => (cladeSegs n).length)) :=
      (levelOrder_perm (annotate t)).map _
    simp only [createTreePlot, List.length_flatMap]
    rw [show (List.map (List.length ∘ cladeSegs) (levelOrder (annotate t))).sum
          = (List.map (fun n => (cladeSegs n).length) (levelOrder (annotate t))).sum from rfl]
    rw [List.Perm.sum_eq hperm]
    exact segSum (annotate t)

/-- Witness for C7 on the example tree: 5 nodes, 2 of them internal, hence
2 vertical + 4 horizontal = 6 segments. -/
theorem segment_builder_witness :
    (createTreePlot exTree exMd true none none).lineTraces.length = 6 := by
  have h := (segment_builder exTree exMd true).2
  rw [annotate_exTree] at h
  simp [allNodesA, allNodesAList, ACl.clades] at h
  omega

theorem foldlMaxNat (l : List ℕ) : ∀ a : ℕ, l.foldl max a = max a (l.foldr max 0) := by
  induction l with
  | nil => intro a; simp
  | cons b l ih =>
    intro a
    rw [List.foldl_cons, List.foldr_cons, ih (max a b), max_assoc]

theorem maxLabelLengthOf_eq (tips : List ACl)
    (H : tips.filterMap tipNameLen ≠ []) :
    maxLabelLengthOf tips = (tips.filterMap tipNameLen).foldr max 0 := by
  cases hfm : tips.filterMap tipNameLen with
  | nil => exact absurd hfm H
  | cons l ls =>
    simp only [maxLabelLengthOf, hfm, List.foldr_cons]
    exact foldlMaxNat ls l

/-- C8 (confirmed): the derived canvas size is
`height = max(800, N * 25)` and `width = max(1000, 800 + L * 10)` for
`N` the tip count and `L` the longest (nonempty) tip-name length; the
sizing constants do not enter any node coordinate — every tip marker sits
at the coordinates `assign_coordinates` gave its tip. -/
theorem layout_sizing (t : Clade) (md : List Row) (sh : Bool) (h w : Option ℕ)
    (H : ∃ tc ∈ terminalsA (annotate t), (tipNameLen tc).isSome = true) :
    ((createTreePlot t md sh h w).height
        = max 800 ((terminalsA (annotate t)).length * 25))
      ∧ ((createTreePlot t md sh h w).width
        = max 1000 (800 + (((terminalsA (annotate t)).filterMap tipNameLen).foldr max 0) * 10))
      ∧ (∀ m ∈ (createTreePlot t md sh h w).tipMarkers,
          ∃ tc ∈ terminalsA (annotate t), m.x = tc.x ∧ m.y = tc.y) := by
  refine ⟨by simp only [createTreePlot], ?_, ?_⟩
  · obtain ⟨tc, htc, hval⟩ := H
    obtain ⟨len, hlen⟩ := Option.isSome_iff_exists.mp hval
    have hne : (terminalsA (annotate t)).filterMap tipNameLen ≠ [] :=
      List.ne_nil_of_mem (List.mem_filterMap.mpr ⟨tc, htc, hlen⟩)
    simp only [createTreePlot]
    rw [maxLabelLengthOf_eq _ hne]
  · intro m hm
    have hproj := (tipLoop_proj md (colorMapOf plotlyPalette (md.map locVal))
      (colorMapOf vividPalette (md.map mlstVal))
      (maxPy ((allNodesA (annotate t)).map ACl.x) 0 + 1 / 50) sh
      (terminalsA (annotate t)) [] []).1
    simp only [createTreePlot] at hm
    have hxy : (m.x, m.y) ∈ ((tipLoop md (colorMapOf plotlyPalette (md.map locVal))
        (colorMapOf vividPalette (md.map mlstVal))
        (maxPy ((allNodesA (annotate t)).map ACl.x) 0 + 1 / 50) sh
        (terminalsA (annotate t)) [] []).1.map (fun m => (m.x, m.y))) :=
      List.mem_map_of_mem _ hm
    rw [hproj] at hxy
    obtain ⟨tc, htc, heq⟩ := List.mem_map.mp hxy
    refine ⟨tc, List.mem_of_mem_filter htc, ?_, ?_⟩
    · exact (congrArg Prod.fst heq).symm
    · exact (congrArg Prod.snd heq).symm

/-- Witness for C8: the caller's 600x600 request is overridden; 3 tips of
name length 1 give height max(800, 75) = 800 and width max(1000, 810) =
1000. -/
theorem layout_sizing_witness :
    (createTreePlot exTree exMd true (some 600) (some 600)).height = 800
      ∧ (createTreePlot exTree exMd true (some 600) (some 600)).width = 1000 := by
  have H : ∃ tc ∈ terminalsA (annotate exTree), (tipNameLen tc).isSome = true := by
    rw [annotate_exTree]
    exact ⟨ACl.mk (some "A") (some 1) none 1 0 [],
      by simp [terminalsA, terminalsAList], by decide⟩
  have h := layout_sizing exTree exMd true (some 600) (some 600) H
  refine ⟨?_, ?_⟩
  · rw [h.1, annotate_exTree]
    simp [terminalsA, terminalsAList]
  · rw [h.2.1, annotate_exTree]
    simp +decide [terminalsA, terminalsAList, tipNameLen, ACl.name]

/-- C9 (confirmed): a support marker is emitted for a node iff its
confidence is present and exceeds 0.9 (Python's `clade.confidence and
clade.confidence > 0.9`; the truthiness test only excludes 0.0, which the
comparison excludes anyway); the marker sits exactly at the node's (x, y)
and lands in the figure's bootstrap markers; nodes with no confidence never
get one. -/
theorem support_markers (t : Clade) (md : List Row) (sh : Bool) :
    ∀ n ∈ levelOrder (annotate t),
      ((bootMarkerOf n).isSome = true ↔ ∃ c, n.confidence = some c ∧ 9 / 10 < c)
        ∧ ∀ bm ∈ bootMarkerOf n,
            bm ∈ (createTreePlot t md sh none none).bootstrapMarkers
              ∧ bm.x = n.x ∧ bm.y = n.y := by
  intro n hn
  constructor
  · constructor
    · intro hs
      cases hcf : n.confidence with
      | none => simp [bootMarkerOf, hcf] at hs
      | some c =>
        by_cases hc : c ≠ 0 ∧ 9 / 10 < c
        · exact ⟨c, rfl, hc.2⟩
        · simp [bootMarkerOf, hcf, if_neg hc] at hs
    · rintro ⟨c, hcf, hgt⟩
      have hc : c ≠ 0 ∧ 9 / 10 < c :=
        ⟨(lt_trans (by norm_num : (0 : ℚ) < 9 / 10) hgt).ne', hgt⟩
      simp [bootMarkerOf, hcf, if_pos hc]
  · intro bm hbm
    have hbm2 : bootMarkerOf n = some bm := hbm
    have hfields : bm.x = n.x ∧ bm.y = n.y := by
      cases hcf : n.confidence with
      | none => simp [bootMarkerOf, hcf] at hbm2
      | some c =>
        by_cases hc : c ≠ 0 ∧ 9 / 10 < c
        · simp only [bootMarkerOf, hcf, if_pos hc, Option.some_inj] at hbm2
          rw [← hbm2]
          exact ⟨rfl, rfl⟩
        · simp [bootMarkerOf, hcf, if_neg hc] at hbm2
    refine ⟨?_, hfields.1, hfields.2⟩
    simp only [createTreePlot]
    exact List.mem_filterMap.mpr ⟨n, hn, hbm2⟩

/-- Witness for C9: the example root with confidence 0.95 gets a marker. -/
theorem support_markers_witness :
    (bootMarkerOf (annotate exTreeConf)).isSome = true := by
  have hcf : (annotate exTreeConf).confidence = some (95 / 100) := by
    norm_num [annotate, exTreeConf, assignCoordinates, assignList, ACl.confidence]
  exact ((support_markers exTreeConf exMd true (annotate exTreeConf)
    (self_mem_levelOrder _)).1).mpr ⟨95 / 100, hcf, by norm_num⟩

/-- C10 (confirmed): the `height`/`width` parameters of `create_tree_plot`
have no effect on its output — they are overwritten by the
tip-count/label-length formulas before first use, so any two calls differing
only in these arguments return identical figures. -/
theorem height_width_params_ignored (t : Clade) (md : List Row) (sh : Bool)
    (h1 w1 h2 w2 : Option ℕ) :
    createTreePlot t md sh h1 w1 = createTreePlot t md sh h2 w2 := rfl

end PhyloDash
